import Mathlib

/-!
Verification of the algorithmic core of `CS215Project.py`: a directed road
graph with per-edge attributes, a travel-time cost function, a path
evaluator, a breadth-first traversal with path reconstruction, and a
tabu-search metaheuristic.  Python floats are modelled by `ℚ` (the values
arising here are exact rationals), `float('inf')` by an explicit `ECost.inf`
constructor, and raising exceptions by the `Except Err` monad.  The two
unbounded `while` loops (BFS and path reconstruction) are modelled with an
explicit fuel parameter; the tabu loop is a plain `for _ in range(n)` and
needs none.
-/

/-- Per-edge attributes, as stored on each edge of the `networkx` graph. -/
structure EdgeAttr where
  distance : ℚ
  speed_limit : ℚ
  traffic : ℚ
deriving DecidableEq

/-- A directed graph: successor lists (in `graph.neighbors` enumeration
order) and edge-attribute lookup (`graph[u][v]`, `none` when the edge is
absent, in which case Python raises `KeyError`). -/
structure Graph (α : Type) where
  neighbors : α → List α
  attr : α → α → Option EdgeAttr

/-- Well-formedness, as guaranteed by `networkx`: `v` is listed as a
successor of `u` exactly when the edge `(u, v)` with its attributes exists. -/
def Graph.WF {α : Type} (g : Graph α) : Prop :=
  ∀ u v, v ∈ g.neighbors u ↔ (g.attr u v).isSome = true

instance {α : Type} [DecidableEq α] [Fintype α] (g : Graph α) :
    Decidable g.WF := by
  unfold Graph.WF; infer_instance

/-- The exceptions the core can raise: `KeyError` from a `graph[u][v]`
lookup of a missing edge, `ZeroDivisionError` from `distance / speed_limit`. -/
inductive Err where
  | keyError : Err
  | zeroDivision : Err
deriving DecidableEq

/-- A cost: a rational number or `float('inf')`. -/
inductive ECost where
  | val : ℚ → ECost
  | inf : ECost
deriving DecidableEq

/-- Python `<` on costs: `inf` compares strictly greater than every finite
value and not strictly less than itself. -/
def ECost.lt : ECost → ECost → Bool
  | .val a, .val b => decide (a < b)
  | .val _, .inf => true
  | .inf, _ => false

/-- `calculate_travel_time(distance, speed_limit, traffic)` returns
`(distance / speed_limit) * 50 * traffic`; Python raises
`ZeroDivisionError` exactly when `speed_limit` is zero. -/
def calculate_travel_time (distance speed_limit traffic : ℚ) : Except Err ℚ :=
  if speed_limit = 0 then .error .zeroDivision
  else .ok (distance / speed_limit * 50 * traffic)

/-- Left-to-right effectful map: the first raised exception aborts the
whole computation, exactly like a Python generator inside `sum(...)`. -/
def mapExcept {β γ : Type} (f : β → Except Err γ) : List β → Except Err (List γ)
  | [] => .ok []
  | x :: xs =>
    match f x with
    | .error e => .error e
    | .ok y =>
      match mapExcept f xs with
      | .error e => .error e
      | .ok ys => .ok (y :: ys)

/-- Cost of one edge `(u, v)`: attribute lookup (`KeyError` if absent)
followed by `calculate_travel_time`. -/
def edgeTime {α : Type} (g : Graph α) (uv : α × α) : Except Err ℚ :=
  match g.attr uv.1 uv.2 with
  | none => .error .keyError
  | some a => calculate_travel_time a.distance a.speed_limit a.traffic

/-- `total_travel_time(graph, path)`: `float('inf')` when `path` is `None`,
empty, or a single node (the `if path and len(path) > 1` guard); otherwise
the sum of `calculate_travel_time` over consecutive pairs
`zip(path[:-1], path[1:])`. -/
def total_travel_time {α : Type} (g : Graph α) (path? : Option (List α)) :
    Except Err ECost :=
  match path? with
  | none => .ok .inf
  | some path =>
    if 1 < path.length then
      match mapExcept (edgeTime g) (path.zip path.tail) with
      | .error e => .error e
      | .ok cs => .ok (.val cs.sum)
    else .ok .inf

/-- The travel time of the edge `(u, v)` as a plain rational (`0` as an
arbitrary default when the edge is absent; only used in statements whose
hypotheses rule the default out). -/
def edgeTimeD {α : Type} (g : Graph α) (uv : α × α) : ℚ :=
  match g.attr uv.1 uv.2 with
  | none => 0
  | some a => a.distance / a.speed_limit * 50 * a.traffic

theorem mapExcept_ok_of_all_ok {β γ : Type} (f : β → Except Err γ) (h : β → γ)
    (l : List β) (hall : ∀ x ∈ l, f x = .ok (h x)) :
    mapExcept f l = .ok (l.map h) := by
  induction l with
  | nil => rfl
  | cons x xs ih =>
    have hx := hall x (List.mem_cons_self x xs)
    have hxs := ih (fun y hy => hall y (List.mem_cons_of_mem x hy))
    simp [mapExcept, hx, hxs]

theorem mapExcept_mem {β γ : Type} (f : β → Except Err γ) (l : List β)
    (l' : List γ) (hok : mapExcept f l = .ok l') :
    ∀ y ∈ l', ∃ x ∈ l, f x = .ok y := by
  induction l generalizing l' with
  | nil =>
    simp only [mapExcept] at hok
    cases hok
    simp
  | cons x xs ih =>
    simp only [mapExcept] at hok
    cases hfx : f x with
    | error e => rw [hfx] at hok; cases hok
    | ok y =>
      rw [hfx] at hok
      cases hrest : mapExcept f xs with
      | error e => rw [hrest] at hok; cases hok
      | ok ys =>
        rw [hrest] at hok
        cases hok
        intro z hz
        rcases List.mem_cons.mp hz with hz | hz
        · exact ⟨x, List.mem_cons_self x xs, hz ▸ hfx⟩
        · rcases ih ys hrest z hz with ⟨w, hw, hfw⟩
          exact ⟨w, List.mem_cons_of_mem x hw, hfw⟩

theorem mapExcept_ne_error {β γ : Type} (f : β → Except Err γ) (l : List β)
    (e : Err) (hall : ∀ x ∈ l, f x ≠ .error e) :
    mapExcept f l ≠ .error e := by
  induction l with
  | nil => simp [mapExcept]
  | cons x xs ih =>
    simp only [mapExcept]
    cases hfx : f x with
    | error e' =>
      intro hcontr
      cases hcontr
      exact hall x (List.mem_cons_self x xs) hfx
    | ok y =>
      cases hrest : mapExcept f xs with
      | error e' =>
        intro hcontr
        cases hcontr
        exact ih (fun z hz => hall z (List.mem_cons_of_mem x hz)) hrest
      | ok ys => simp

/-- C3: for all `distance`, `speed_limit`, `traffic` with nonzero
`speed_limit`, the cost function returns exactly
`(distance / speed_limit) * 50 * traffic`. -/
theorem travel_time_formula (d s t : ℚ) (hs : s ≠ 0) :
    calculate_travel_time d s t = .ok (d / s * 50 * t) := by
  simp [calculate_travel_time, hs]

theorem travel_time_formula_witness :
    (5 : ℚ) ≠ 0 ∧ calculate_travel_time 3 5 2 = .ok (3 / 5 * 50 * 2) :=
  ⟨by norm_num, travel_time_formula 3 5 2 (by norm_num)⟩

/-- C5 counterexample: the claim says the cost function fails on every
`speed_limit ≤ 0`, but at `distance = 5`, `speed_limit = -1`,
`traffic = 1` (so `speed_limit ≤ 0`) it succeeds and returns `-250`. -/
theorem travel_time_negative_speed_ok :
    (-1 : ℚ) ≤ 0 ∧ calculate_travel_time 5 (-1) 1 = .ok (-250) := by
  constructor
  · norm_num
  · simp [calculate_travel_time]
    norm_num

/-- C5 amended: the cost function fails (with `ZeroDivisionError`) exactly
when `speed_limit = 0`; for every nonzero `speed_limit` — positive or
negative — it returns a value, and `traffic` values below `1.0` are
accepted, never rejected. -/
theorem travel_time_fails_iff_zero (d s t : ℚ) :
    (calculate_travel_time d s t = .error .zeroDivision ↔ s = 0) ∧
      (s ≠ 0 → calculate_travel_time d s t = .ok (d / s * 50 * t)) := by
  constructor
  · constructor
    · intro herr
      by_contra hs
      simp [calculate_travel_time, hs] at herr
    · intro hs
      simp [calculate_travel_time, hs]
  · intro hs
    simp [calculate_travel_time, hs]

/-- C4: the path evaluator returns `+infinity` on every path of fewer than
two nodes, and on every longer path whose consecutive pairs are all edges
of the graph (with nonzero speed limits, so the per-edge travel time is
defined) it returns the sum of the travel times of those edges. -/
theorem total_travel_time_spec {α : Type} (g : Graph α) :
    (∀ p : List α, p.length < 2 → total_travel_time g (some p) = .ok .inf) ∧
      (∀ p : List α, 2 ≤ p.length →
        (∀ uv ∈ p.zip p.tail,
          ∃ a, g.attr uv.1 uv.2 = some a ∧ a.speed_limit ≠ 0) →
        total_travel_time g (some p) =
          .ok (.val (((p.zip p.tail).map (edgeTimeD g)).sum))) := by
  constructor
  · intro p hp
    have : ¬ 1 < p.length := by omega
    simp [total_travel_time, this]
  · intro p hp hedges
    have hlen : 1 < p.length := by omega
    have hall : ∀ uv ∈ p.zip p.tail, edgeTime g uv = .ok (edgeTimeD g uv) := by
      intro uv huv
      rcases hedges uv huv with ⟨a, ha, hs⟩
      simp [edgeTime, edgeTimeD, ha, calculate_travel_time, hs]
    have hmap := mapExcept_ok_of_all_ok (edgeTime g) (edgeTimeD g)
      (p.zip p.tail) hall
    simp [total_travel_time, hlen, hmap]

/-- C9: evaluating an absent path (the `None` returned by a failed
reconstruction) yields `+infinity` rather than raising. -/
theorem total_travel_time_none_inf {α : Type} (g : Graph α) :
    total_travel_time g none = .ok .inf := rfl

/-- One step of the `bfs` while-loop per unit of fuel: pop the queue head;
if unvisited, mark it visited, append it to the discovery order, and for
each not-yet-visited successor enqueue it and record the `(node, neighbor)`
edge.  Returns `(order, edges)` when the queue empties (or fuel runs out,
which a large enough fuel makes unreachable). -/
def bfsAux {α : Type} [DecidableEq α] (g : Graph α) :
    Nat → List α → List α → List α → List (α × α) → List α × List (α × α)
  | 0, _, _, order, es => (order, es)
  | _ + 1, [], _, order, es => (order, es)
  | n + 1, node :: queue, visited, order, es =>
    if node ∈ visited then bfsAux g n queue visited order es
    else
      let visited' := visited ++ [node]
      let newNbrs := (g.neighbors node).filter (fun nbr => decide (¬ nbr ∈ visited'))
      bfsAux g n (queue ++ newNbrs) visited' (order ++ [node])
        (es ++ newNbrs.map (fun nbr => (node, nbr)))

/-- `bfs(graph, start)`: seed the queue with the start node and run the
loop; yields the discovery order and the recorded explored edges. -/
def bfs {α : Type} [DecidableEq α] (g : Graph α) (start : α) (fuel : Nat) :
    List α × List (α × α) :=
  bfsAux g fuel [start] [] [] []

/-- The dict comprehension `{v: u for u, v in edges}`: the last pair with
second component `x` wins, i.e. the first match in the reversed list. -/
def parent_map {α : Type} [DecidableEq α] (es : List (α × α)) (x : α) :
    Option α :=
  (es.reverse.find? (fun uv => decide (uv.2 = x))).map Prod.fst

/-- One step of the `extract_bfs_path` while-loop per unit of fuel: stop
with the reversed accumulated path when the start is reached, return `None`
when the current node has no parent, else step to the parent. -/
def extractAux {α : Type} [DecidableEq α] (start : α) (pm : α → Option α) :
    Nat → α → List α → Option (List α)
  | 0, current, path => if current = start then some path.reverse else none
  | n + 1, current, path =>
    if current = start then some path.reverse
    else
      match pm current with
      | none => none
      | some p => extractAux start pm n p (path ++ [p])

/-- `extract_bfs_path(start, goal, edges)`: walk the parent map from the
goal back to the start, accumulating nodes, then reverse. -/
def extract_bfs_path {α : Type} [DecidableEq α] (start goal : α)
    (es : List (α × α)) (fuel : Nat) : Option (List α) :=
  extractAux start (parent_map es) fuel goal [goal]

/-- The concrete six-node city of the spec scenario: edges A→B, A→C, B→D,
C→E, D→F, E→F, every edge with `distance = 5`, `speed_limit = 50`,
`traffic = 1.0` (per-edge cost exactly 5.0). -/
def cityC1 : Graph String where
  neighbors := fun u =>
    if u = "A" then ["B", "C"]
    else if u = "B" then ["D"]
    else if u = "C" then ["E"]
    else if u = "D" then ["F"]
    else if u = "E" then ["F"]
    else []
  attr := fun u v =>
    if (u, v) ∈ [("A", "B"), ("A", "C"), ("B", "D"),
                 ("C", "E"), ("D", "F"), ("E", "F")] then
      some ⟨5, 50, 1⟩
    else none

deriving instance DecidableEq for Except

theorem bfsAux_targets_inv {α : Type} [DecidableEq α] (g : Graph α) (start : α) :
    ∀ (fuel : Nat) (queue visited order : List α) (es : List (α × α)),
      (∀ x ∈ queue, x = start ∨ x ∈ es.map Prod.snd) →
      (∀ x ∈ order, x = start ∨ x ∈ es.map Prod.snd) →
      ∀ x ∈ (bfsAux g fuel queue visited order es).1,
        x = start ∨ x ∈ (bfsAux g fuel queue visited order es).2.map Prod.snd := by
  intro fuel
  induction fuel with
  | zero => intro queue visited order es hq ho x hx; exact ho x hx
  | succ n ih =>
    intro queue visited order es hq ho x hx
    match queue with
    | [] => exact ho x hx
    | node :: queue =>
      by_cases hv : node ∈ visited
      · rw [bfsAux, if_pos hv] at hx ⊢
        exact ih queue visited order es
          (fun y hy => hq y (List.mem_cons_of_mem node hy)) ho x hx
      · rw [bfsAux, if_neg hv] at hx ⊢
        refine ih _ _ _ _ ?_ ?_ x hx
        · intro y hy
          rcases List.mem_append.mp hy with hy | hy
          · rcases hq y (List.mem_cons_of_mem node hy) with h | h
            · exact Or.inl h
            · refine Or.inr ?_
              rw [List.map_append]
              exact List.mem_append.mpr (Or.inl h)
          · refine Or.inr ?_
            rw [List.map_append, List.map_map]
            refine List.mem_append.mpr (Or.inr ?_)
            simpa using List.mem_map_of_mem (fun nbr => nbr) hy
        · intro y hy
          rcases List.mem_append.mp hy with hy | hy
          · rcases ho y hy with h | h
            · exact Or.inl h
            · refine Or.inr ?_
              rw [List.map_append]
              exact List.mem_append.mpr (Or.inl h)
          · have hy' : y = node := by simpa using hy
            subst hy'
            rcases hq y (List.mem_cons_self y _) with h | h
            · exact Or.inl h
            · refine Or.inr ?_
              rw [List.map_append]
              exact List.mem_append.mpr (Or.inl h)

/-- C1 counterexample: on the spec scenario graph, BFS from `A` discovers
`[A, B, C, D, E, F]` as claimed, but path reconstruction does NOT yield
`[A, B, D, F]` — node `F` is recorded twice (from `D` and then from `E`),
and the dict comprehension keeps the last writer. -/
theorem bfs_path_not_ABDF :
    (bfs cityC1 "A" 10).1 = ["A", "B", "C", "D", "E", "F"] ∧
      extract_bfs_path "A" "F" (bfs cityC1 "A" 10).2 10 ≠
        some ["A", "B", "D", "F"] := by decide

/-- C1 amended: on the spec scenario graph, BFS from `A` discovers
`[A, B, C, D, E, F]` (neighbors enumerated `B` before `C`), and path
reconstruction from the recorded explored edges yields `[A, C, E, F]`
(node `F` keeps its last recorded parent `E`), whose evaluated cost is
`15.0`. -/
theorem bfs_concrete_run :
    (bfs cityC1 "A" 10).1 = ["A", "B", "C", "D", "E", "F"] ∧
      extract_bfs_path "A" "F" (bfs cityC1 "A" 10).2 10 = some ["A", "C", "E", "F"] ∧
      total_travel_time cityC1 (extract_bfs_path "A" "F" (bfs cityC1 "A" 10).2 10) =
        .ok (.val 15) := by
  refine ⟨by decide, by decide, ?_⟩
  have h : extract_bfs_path "A" "F" (bfs cityC1 "A" 10).2 10 =
      some ["A", "C", "E", "F"] := by decide
  rw [h]
  norm_num [total_travel_time, mapExcept, edgeTime, cityC1, calculate_travel_time]

/-- C2 counterexample: on the spec scenario graph, node `F` is discovered,
yet the recorded explored edges contain two edges with target `F` (namely
`(D, F)` and `(E, F)`): the visited guard does not stop a node that is
still waiting in the queue from being recorded again. -/
theorem bfs_edges_target_twice :
    "F" ∈ (bfs cityC1 "A" 10).1 ∧
      1 < ((bfs cityC1 "A" 10).2.filter (fun uv => decide (uv.2 = "F"))).length := by
  decide

/-- C2 amended: the recorded explored edges may contain more than one edge
per discovered target (one per enqueue of that target before its visit);
still, every discovered non-start node appears as the target of some
recorded edge, so the parent map (last writer wins) assigns it exactly one
parent. -/
theorem bfs_parent_exists {α : Type} [DecidableEq α] (g : Graph α)
    (start : α) (fuel : Nat) :
    ∀ x ∈ (bfs g start fuel).1, x ≠ start →
      ∃ u, parent_map (bfs g start fuel).2 x = some u := by
  intro x hx hne
  have hinv := bfsAux_targets_inv g start fuel [start] [] [] []
    (by intro y hy; left; simpa using hy) (by intro y hy; cases hy) x hx
  rcases hinv with h | h
  · exact absurd h hne
  · rcases List.mem_map.mp h with ⟨uv, huv, hsnd⟩
    have hmem : uv ∈ (bfs g start fuel).2.reverse := List.mem_reverse.mpr huv
    have hsome : ((bfs g start fuel).2.reverse.find?
        (fun uv => decide (uv.2 = x))).isSome := by
      apply List.find?_isSome.mpr
      exact ⟨uv, hmem, by simp [hsnd]⟩
    rcases Option.isSome_iff_exists.mp hsome with ⟨p, hp⟩
    exact ⟨p.1, by simp [parent_map, hp]⟩

theorem bfs_parent_exists_witness :
    ∃ u, parent_map (bfs cityC1 "A" 10).2 "F" = some u :=
  bfs_parent_exists cityC1 "A" 10 "F" (by decide) (by decide)

/-- C9: evaluating the result of a failed breadth-first reconstruction
(the `None` it returns when the goal has no recorded parent chain) is
always safe: the evaluator returns `+infinity` instead of raising. -/
theorem eval_failed_reconstruction_safe {α : Type} [DecidableEq α]
    (g : Graph α) (start goal : α) (es : List (α × α)) (fuel : Nat)
    (hfail : extract_bfs_path start goal es fuel = none) :
    total_travel_time g (extract_bfs_path start goal es fuel) = .ok .inf := by
  rw [hfail]; rfl

theorem eval_failed_reconstruction_safe_witness :
    total_travel_time cityC1 (extract_bfs_path "A" "Z" [] 5) = .ok .inf :=
  eval_failed_reconstruction_safe cityC1 "A" "Z" [] 5 (by decide)

/-- C4 witness helper is below; first the tabu-search embedding. The inner
`travel_time(path)` closure of `tabu_search`. -/
def travel_time {α : Type} (g : Graph α) (path : List α) : Except Err ECost :=
  total_travel_time g (some path)

/-- `get_neighbors(path)`: one candidate per outgoing edge of the last node
of `path` whose target is not already in `path`, each candidate being
`path` extended by that target. -/
def get_neighbors {α : Type} [DecidableEq α] (g : Graph α) (path : List α) :
    List (List α) :=
  match path.getLast? with
  | none => []
  | some last =>
    ((g.neighbors last).filter (fun nbr => decide (¬ nbr ∈ path))).map
      (fun nbr => path ++ [nbr])

/-- Insert a (candidate, cost) pair into an already sorted list, before the
first entry whose cost is not smaller: this is the unique stable ascending
order, the one `list.sort(key=...)` produces. -/
def insertRanked {α : Type} (x : List α × ECost) :
    List (List α × ECost) → List (List α × ECost)
  | [] => [x]
  | y :: ys => if ECost.lt y.2 x.2 then y :: insertRanked x ys else x :: y :: ys

/-- Stable sort of (candidate, cost) pairs ascending by cost, modelling
`neighbors.sort(key=travel_time)` (Python's sort is stable, and a stable
sort by a total key order is unique). -/
def sortByCost {α : Type} : List (List α × ECost) → List (List α × ECost)
  | [] => []
  | x :: xs => insertRanked x (sortByCost xs)

/-- `deque(maxlen=cap).append(x)`: append and drop from the left down to
`cap` entries. -/
def pushTabu {α : Type} (cap : Nat) (tl : List (List α)) (x : List α) :
    List (List α) :=
  (tl ++ [x]).drop (tl.length + 1 - cap)

/-- The mutable state of the `tabu_search` loop. -/
structure TabuState (α : Type) where
  current : List α
  best : Option (List α)
  bestCost : ECost
  tabuList : List (List α)
  history : List (List α)
deriving DecidableEq

/-- The state before the first iteration: `current_solution = [start]`,
no best solution, infinite best cost, empty tabu deque and log. -/
def tabuInit {α : Type} (start : α) : TabuState α :=
  { current := [start], best := none, bestCost := .inf,
    tabuList := [], history := [] }

/-- One iteration of the tabu loop.  `ok none` models the `break` on an
empty candidate list; `error e` models an uncaught Python exception raised
while computing a sort key or the current cost. -/
def tabuStep {α : Type} [DecidableEq α] (g : Graph α) (goal : α) (cap : Nat)
    (s : TabuState α) : Except Err (Option (TabuState α)) :=
  let cands := (get_neighbors g s.current).filter
    (fun n => decide (¬ n ∈ s.tabuList))
  if cands.isEmpty then .ok none
  else
    match mapExcept (fun p =>
        match travel_time g p with
        | .error e => .error e
        | .ok c => .ok (p, c)) cands with
    | .error e => .error e
    | .ok keyed =>
      match sortByCost keyed with
      | [] => .ok none
      | best :: _ =>
        match travel_time g best.1 with
        | .error e => .error e
        | .ok c =>
          if best.1.getLast? = some goal ∧ ECost.lt c s.bestCost = true then
            .ok (some { current := best.1, best := some best.1, bestCost := c,
                        tabuList := pushTabu cap s.tabuList best.1,
                        history := s.history ++ [best.1] })
          else
            .ok (some { current := best.1, best := s.best,
                        bestCost := s.bestCost,
                        tabuList := pushTabu cap s.tabuList best.1,
                        history := s.history ++ [best.1] })

/-- `for _ in range(max_iterations)` around `tabuStep`; stops early on
`break`, propagates exceptions. -/
def tabuLoop {α : Type} [DecidableEq α] (g : Graph α) (goal : α) (cap : Nat) :
    Nat → TabuState α → Except Err (TabuState α)
  | 0, s => .ok s
  | n + 1, s =>
    match tabuStep g goal cap s with
    | .error e => .error e
    | .ok none => .ok s
    | .ok (some s') => tabuLoop g goal cap n s'

/-- `tabu_search(graph, start, goal, max_iterations, tabu_size)`: run the
loop from the initial state and return
`(best_solution, best_cost, tabu_history)`. -/
def tabu_search {α : Type} [DecidableEq α] (g : Graph α) (start goal : α)
    (max_iterations tabu_size : Nat) :
    Except Err (Option (List α) × ECost × List (List α)) :=
  match tabuLoop g goal tabu_size max_iterations (tabuInit start) with
  | .error e => .error e
  | .ok s => .ok (s.best, s.bestCost, s.history)

/-- The states an execution of the tabu loop passes through: reflexive,
transitive closure of successful non-breaking iterations. -/
inductive TabuReach {α : Type} [DecidableEq α] (g : Graph α) (goal : α)
    (cap : Nat) : TabuState α → TabuState α → Prop where
  | refl (s : TabuState α) : TabuReach g goal cap s s
  | step {s t t' : TabuState α} : TabuReach g goal cap s t →
      tabuStep g goal cap t = .ok (some t') → TabuReach g goal cap s t'

theorem mem_insertRanked {α : Type} (x y : List α × ECost)
    (l : List (List α × ECost)) (h : y ∈ insertRanked x l) : y = x ∨ y ∈ l := by
  induction l with
  | nil =>
    rw [insertRanked] at h
    exact Or.inl (by simpa using h)
  | cons z zs ih =>
    rw [insertRanked] at h
    by_cases hc : ECost.lt z.2 x.2
    · rw [if_pos hc] at h
      rcases List.mem_cons.mp h with h | h
      · exact Or.inr (List.mem_cons.mpr (Or.inl h))
      · rcases ih h with h | h
        · exact Or.inl h
        · exact Or.inr (List.mem_cons.mpr (Or.inr h))
    · rw [if_neg hc] at h
      rcases List.mem_cons.mp h with h | h
      · exact Or.inl h
      · exact Or.inr h

theorem mem_sortByCost {α : Type} (y : List α × ECost)
    (l : List (List α × ECost)) (h : y ∈ sortByCost l) : y ∈ l := by
  induction l with
  | nil => simpa [sortByCost] using h
  | cons z zs ih =>
    rw [sortByCost] at h
    rcases mem_insertRanked z y (sortByCost zs) h with h | h
    · exact List.mem_cons.mpr (Or.inl h)
    · exact List.mem_cons.mpr (Or.inr (ih h))

theorem pushTabu_length {α : Type} (cap : Nat) (tl : List (List α))
    (x : List α) : (pushTabu cap tl x).length ≤ cap ∧
      (cap ≤ tl.length + 1 → (pushTabu cap tl x).length = cap) := by
  unfold pushTabu
  constructor
  · rw [List.length_drop, List.length_append, List.length_singleton]
    omega
  · intro h
    rw [List.length_drop, List.length_append, List.length_singleton]
    omega

theorem pushTabu_at_cap {α : Type} (cap : Nat) (tl : List (List α))
    (x : List α) (hcap : 0 < cap) (hlen : tl.length = cap) :
    pushTabu cap tl x = tl.drop 1 ++ [x] := by
  unfold pushTabu
  rw [hlen]
  have h1 : cap + 1 - cap = 1 := by omega
  rw [h1]
  have htl : 1 ≤ tl.length := by omega
  rw [List.drop_append_of_le_length htl]

theorem mem_get_neighbors {α : Type} [DecidableEq α] (g : Graph α)
    (cur p : List α) (h : p ∈ get_neighbors g cur) :
    ∃ last v, cur.getLast? = some last ∧ v ∈ g.neighbors last ∧ ¬ v ∈ cur ∧
      p = cur ++ [v] := by
  unfold get_neighbors at h
  cases hl : cur.getLast? with
  | none => rw [hl] at h; cases h
  | some last =>
    rw [hl] at h
    rcases List.mem_map.mp h with ⟨v, hv, hp⟩
    rcases List.mem_filter.mp hv with ⟨hvn, hvc⟩
    exact ⟨last, v, rfl, hvn, by simpa using hvc, hp.symm⟩

theorem tabuStep_spec {α : Type} [DecidableEq α] (g : Graph α) (goal : α)
    (cap : Nat) (s s' : TabuState α)
    (h : tabuStep g goal cap s = .ok (some s')) :
    s'.current ∈ get_neighbors g s.current ∧
      s'.tabuList = pushTabu cap s.tabuList s'.current ∧
      s'.history = s.history ++ [s'.current] ∧
      ((s'.best = s.best ∧ s'.bestCost = s.bestCost) ∨
        (s'.best = some s'.current ∧ s'.current.getLast? = some goal)) := by
  unfold tabuStep at h
  set cands := (get_neighbors g s.current).filter
    (fun n => decide (¬ n ∈ s.tabuList)) with hcands
  by_cases hempty : cands.isEmpty
  · rw [if_pos hempty] at h; cases h
  · rw [if_neg hempty] at h
    cases hmap : mapExcept (fun p =>
        match travel_time g p with
        | .error e => .error e
        | .ok c => .ok (p, c)) cands with
    | error e => rw [hmap] at h; cases h
    | ok keyed =>
      rw [hmap] at h
      dsimp only at h
      cases hsort : sortByCost keyed with
      | nil => rw [hsort] at h; cases h
      | cons best rest =>
        rw [hsort] at h
        dsimp only at h
        have hbk : best ∈ keyed := by
          apply mem_sortByCost
          rw [hsort]
          exact List.mem_cons_self best rest
        rcases mapExcept_mem _ cands keyed hmap best hbk with ⟨q, hq, hfq⟩
        have hq1 : q = best.1 := by
          cases htq : travel_time g q with
          | error e => rw [htq] at hfq; cases hfq
          | ok c =>
            rw [htq] at hfq
            cases hfq
            rfl
        have hbest1 : best.1 ∈ get_neighbors g s.current := by
          rw [← hq1]
          exact (List.mem_filter.mp (hcands ▸ hq)).1
        cases htb : travel_time g best.1 with
        | error e => rw [htb] at h; cases h
        | ok c =>
          rw [htb] at h
          dsimp only at h
          by_cases hupd : best.1.getLast? = some goal ∧ ECost.lt c s.bestCost = true
          · rw [if_pos hupd] at h
            cases h
            exact ⟨hbest1, rfl, rfl, Or.inr ⟨rfl, hupd.1⟩⟩
          · rw [if_neg hupd] at h
            cases h
            exact ⟨hbest1, rfl, rfl, Or.inl ⟨rfl, rfl⟩⟩

/-- C6: throughout every execution of the tabu loop, the bounded
forbidden-move deque never holds more than `tabu_capacity` paths, and once
it is at capacity a push evicts the oldest entry (FIFO). -/
theorem tabu_list_bounded_fifo {α : Type} [DecidableEq α] (g : Graph α)
    (start goal : α) (cap : Nat) :
    (∀ s, TabuReach g goal cap (tabuInit start) s → s.tabuList.length ≤ cap) ∧
      (∀ s s', TabuReach g goal cap (tabuInit start) s →
        tabuStep g goal cap s = .ok (some s') → 0 < cap →
        s.tabuList.length = cap →
        s'.tabuList = s.tabuList.drop 1 ++ [s'.current]) := by
  constructor
  · intro s hs
    induction hs with
    | refl => simp [tabuInit]
    | step hreach hstep ih =>
      rename_i t t' _
      rcases tabuStep_spec _ _ _ _ _ hstep with ⟨_, htl, _, _⟩
      rw [htl]
      exact (pushTabu_length _ _ _).1
  · intro s s' _ hstep hcap hlen
    rcases tabuStep_spec _ _ _ _ _ hstep with ⟨_, htl, _, _⟩
    rw [htl, pushTabu_at_cap cap _ _ hcap hlen]

/-- All paths a tabu state holds are simple. -/
def SimplePaths {α : Type} (s : TabuState α) : Prop :=
  s.current.Nodup ∧ (∀ p, s.best = some p → p.Nodup) ∧ ∀ p ∈ s.history, p.Nodup

theorem tabuStep_simple {α : Type} [DecidableEq α] (g : Graph α) (goal : α)
    (cap : Nat) (s s' : TabuState α)
    (hstep : tabuStep g goal cap s = .ok (some s')) (hinv : SimplePaths s) :
    SimplePaths s' := by
  rcases tabuStep_spec _ _ _ _ _ hstep with ⟨hmem, _, hhist, hbest⟩
  rcases mem_get_neighbors _ _ _ hmem with ⟨last, v, hlast, hv, hvnot, hp⟩
  have hnodup : s'.current.Nodup := by
    rw [hp, List.nodup_append]
    refine ⟨hinv.1, List.nodup_singleton v, ?_⟩
    intro a ha hav
    have : a = v := by simpa using hav
    exact hvnot (this ▸ ha)
  refine ⟨hnodup, ?_, ?_⟩
  · intro p hpb
    rcases hbest with ⟨hb, _⟩ | ⟨hb, _⟩
    · exact hinv.2.1 p (hb ▸ hpb)
    · rw [hb] at hpb
      cases hpb
      exact hnodup
  · intro p hph
    rw [hhist] at hph
    rcases List.mem_append.mp hph with h | h
    · exact hinv.2.2 p h
    · have : p = s'.current := by simpa using h
      exact this ▸ hnodup

theorem tabuLoop_simple {α : Type} [DecidableEq α] (g : Graph α) (goal : α)
    (cap : Nat) : ∀ (n : Nat) (s s' : TabuState α),
    tabuLoop g goal cap n s = .ok s' → SimplePaths s → SimplePaths s' := by
  intro n
  induction n with
  | zero =>
    intro s s' hl hs
    cases hl
    exact hs
  | succ m ih =>
    intro s s' hl hs
    rw [tabuLoop] at hl
    cases hstep : tabuStep g goal cap s with
    | error e => rw [hstep] at hl; cases hl
    | ok r =>
      rw [hstep] at hl
      cases r with
      | none =>
        cases hl
        exact hs
      | some t =>
        exact ih t s' hl (tabuStep_simple g goal cap s t hstep hs)

/-- C7: every path tabu search accepts as a current solution (hence every
entry of the returned history) is simple, and so is the returned
`best_solution` when it is not `none`. -/
theorem tabu_solutions_simple {α : Type} [DecidableEq α] (g : Graph α)
    (start goal : α) (n cap : Nat) (b : Option (List α)) (c : ECost)
    (hist : List (List α))
    (hrun : tabu_search g start goal n cap = .ok (b, c, hist)) :
    (∀ p, b = some p → p.Nodup) ∧ ∀ p ∈ hist, p.Nodup := by
  unfold tabu_search at hrun
  cases hloop : tabuLoop g goal cap n (tabuInit start) with
  | error e => rw [hloop] at hrun; cases hrun
  | ok s =>
    rw [hloop] at hrun
    have hsimple := tabuLoop_simple g goal cap n (tabuInit start) s hloop
      (by refine ⟨List.nodup_singleton start, ?_, ?_⟩ <;> simp [tabuInit])
    cases hrun
    exact ⟨hsimple.2.1, hsimple.2.2⟩

theorem tabuLoop_unreached {α : Type} [DecidableEq α] (g : Graph α)
    (goal : α) (cap : Nat) : ∀ (n : Nat) (s s' : TabuState α),
    tabuLoop g goal cap n s = .ok s' →
    ((∀ p ∈ s.history, p.getLast? ≠ some goal) →
      s.best = none ∧ s.bestCost = .inf) →
    (∀ p ∈ s'.history, p.getLast? ≠ some goal) →
    s'.best = none ∧ s'.bestCost = .inf := by
  intro n
  induction n with
  | zero =>
    intro s s' hl hs
    cases hl
    exact hs
  | succ m ih =>
    intro s s' hl hs
    rw [tabuLoop] at hl
    cases hstep : tabuStep g goal cap s with
    | error e => rw [hstep] at hl; cases hl
    | ok r =>
      rw [hstep] at hl
      cases r with
      | none =>
        cases hl
        exact hs
      | some t =>
        refine ih t s' hl ?_
        intro hallt
        rcases tabuStep_spec _ _ _ _ _ hstep with ⟨_, _, hhist, hbest⟩
        have hcurt : t.current.getLast? ≠ some goal := by
          apply hallt
          rw [hhist]
          simp
        have halls : ∀ p ∈ s.history, p.getLast? ≠ some goal := by
          intro p hp
          apply hallt
          rw [hhist]
          exact List.mem_append.mpr (Or.inl hp)
        rcases hbest with ⟨hb, hc⟩ | ⟨_, hlast⟩
        · rw [hb, hc]
          exact hs halls
        · exact absurd hlast hcurt

/-- C8: tabu search returns the triple `(best_solution, best_cost,
iteration_log)`, and when no accepted solution ever ends at the goal the
result reports unreachability as data: `best_solution = none` and
`best_cost = +infinity` (never an exception). -/
theorem tabu_unreached_goal_none {α : Type} [DecidableEq α] (g : Graph α)
    (start goal : α) (n cap : Nat) (b : Option (List α)) (c : ECost)
    (hist : List (List α))
    (hrun : tabu_search g start goal n cap = .ok (b, c, hist))
    (hng : ∀ p ∈ hist, p.getLast? ≠ some goal) : b = none ∧ c = .inf := by
  unfold tabu_search at hrun
  cases hloop : tabuLoop g goal cap n (tabuInit start) with
  | error e => rw [hloop] at hrun; cases hrun
  | ok s =>
    rw [hloop] at hrun
    cases hrun
    exact tabuLoop_unreached g goal cap n (tabuInit start) s hloop
      (by intro _; exact ⟨rfl, rfl⟩) hng

theorem cityTT_AB : travel_time cityC1 ["A", "B"] = .ok (.val 5) := by
  norm_num [travel_time, total_travel_time, mapExcept, edgeTime, cityC1,
    calculate_travel_time]

theorem cityTT_AC : travel_time cityC1 ["A", "C"] = .ok (.val 5) := by
  norm_num [travel_time, total_travel_time, mapExcept, edgeTime, cityC1,
    calculate_travel_time]

theorem cityTT_ABD : travel_time cityC1 ["A", "B", "D"] = .ok (.val 10) := by
  norm_num [travel_time, total_travel_time, mapExcept, edgeTime, cityC1,
    calculate_travel_time]

theorem cityTT_ABDF : travel_time cityC1 ["A", "B", "D", "F"] = .ok (.val 15) := by
  norm_num [travel_time, total_travel_time, mapExcept, edgeTime, cityC1,
    calculate_travel_time]

theorem eclt_5_5 : ECost.lt (.val 5) (.val 5) = false := by
  norm_num [ECost.lt]

theorem eclt_15_inf : ECost.lt (.val 15) ECost.inf = true := by
  norm_num [ECost.lt]

theorem cityNbA : cityC1.neighbors "A" = ["B", "C"] := by rfl

theorem cityNbB : cityC1.neighbors "B" = ["D"] := by rfl

theorem cityNbD : cityC1.neighbors "D" = ["F"] := by rfl

theorem cityNbF : cityC1.neighbors "F" = [] := by rfl

theorem cityStep1 : tabuStep cityC1 "F" 5 (tabuInit "A") =
    .ok (some ⟨["A", "B"], none, .inf, [["A", "B"]], [["A", "B"]]⟩) := by
  simp +decide [tabuStep, tabuInit, get_neighbors, cityNbA, mapExcept,
    cityTT_AB, cityTT_AC, sortByCost, insertRanked, eclt_5_5, pushTabu]

theorem cityStep2 : tabuStep cityC1 "F" 5
    ⟨["A", "B"], none, .inf, [["A", "B"]], [["A", "B"]]⟩ =
    .ok (some ⟨["A", "B", "D"], none, .inf, [["A", "B"], ["A", "B", "D"]],
      [["A", "B"], ["A", "B", "D"]]⟩) := by
  simp +decide [tabuStep, get_neighbors, cityNbB, mapExcept, cityTT_ABD,
    sortByCost, insertRanked, pushTabu]

theorem cityStep3 : tabuStep cityC1 "F" 5
    ⟨["A", "B", "D"], none, .inf, [["A", "B"], ["A", "B", "D"]],
      [["A", "B"], ["A", "B", "D"]]⟩ =
    .ok (some ⟨["A", "B", "D", "F"], some ["A", "B", "D", "F"], .val 15,
      [["A", "B"], ["A", "B", "D"], ["A", "B", "D", "F"]],
      [["A", "B"], ["A", "B", "D"], ["A", "B", "D", "F"]]⟩) := by
  simp +decide [tabuStep, get_neighbors, cityNbD, mapExcept, cityTT_ABDF,
    sortByCost, insertRanked, eclt_15_inf, pushTabu]

theorem cityStep4 : tabuStep cityC1 "F" 5
    ⟨["A", "B", "D", "F"], some ["A", "B", "D", "F"], .val 15,
      [["A", "B"], ["A", "B", "D"], ["A", "B", "D", "F"]],
      [["A", "B"], ["A", "B", "D"], ["A", "B", "D", "F"]]⟩ = .ok none := by
  simp +decide [tabuStep, get_neighbors, cityNbF]

theorem cityTabuRun : tabu_search cityC1 "A" "F" 5 5 =
    .ok (some ["A", "B", "D", "F"], .val 15,
      [["A", "B"], ["A", "B", "D"], ["A", "B", "D", "F"]]) := by
  simp [tabu_search, tabuLoop, cityStep1, cityStep2, cityStep3, cityStep4]

theorem tabu_solutions_simple_witness :
    (∀ p, (some ["A", "B", "D", "F"] : Option (List String)) = some p →
      p.Nodup) ∧
      ∀ p ∈ [["A", "B"], ["A", "B", "D"], ["A", "B", "D", "F"]],
        List.Nodup p :=
  tabu_solutions_simple cityC1 "A" "F" 5 5 _ _ _ cityTabuRun

theorem cityStep1cap1 : tabuStep cityC1 "F" 1 (tabuInit "A") =
    .ok (some ⟨["A", "B"], none, .inf, [["A", "B"]], [["A", "B"]]⟩) := by
  simp +decide [tabuStep, tabuInit, get_neighbors, cityNbA, mapExcept,
    cityTT_AB, cityTT_AC, sortByCost, insertRanked, eclt_5_5, pushTabu]

theorem cityStep2cap1 : tabuStep cityC1 "F" 1
    ⟨["A", "B"], none, .inf, [["A", "B"]], [["A", "B"]]⟩ =
    .ok (some ⟨["A", "B", "D"], none, .inf, [["A", "B", "D"]],
      [["A", "B"], ["A", "B", "D"]]⟩) := by
  simp +decide [tabuStep, get_neighbors, cityNbB, mapExcept, cityTT_ABD,
    sortByCost, insertRanked, pushTabu]

theorem tabu_list_bounded_fifo_witness :
    ([["A", "B"]] : List (List String)).length ≤ 1 ∧
      ([["A", "B", "D"]] : List (List String)) =
        ([["A", "B"]] : List (List String)).drop 1 ++ [["A", "B", "D"]] := by
  have h1 := (tabu_list_bounded_fifo cityC1 "A" "F" 1).1
    ⟨["A", "B"], none, .inf, [["A", "B"]], [["A", "B"]]⟩
    (TabuReach.step (TabuReach.refl _) cityStep1cap1)
  have h2 := (tabu_list_bounded_fifo cityC1 "A" "F" 1).2
    ⟨["A", "B"], none, .inf, [["A", "B"]], [["A", "B"]]⟩
    ⟨["A", "B", "D"], none, .inf, [["A", "B", "D"]],
      [["A", "B"], ["A", "B", "D"]]⟩
    (TabuReach.step (TabuReach.refl _) cityStep1cap1) cityStep2cap1
    (by decide) (by decide)
  exact ⟨h1, h2⟩

theorem cityStepZ : tabuStep cityC1 "Z" 5 (tabuInit "A") =
    .ok (some ⟨["A", "B"], none, .inf, [["A", "B"]], [["A", "B"]]⟩) := by
  simp +decide [tabuStep, tabuInit, get_neighbors, cityNbA, mapExcept,
    cityTT_AB, cityTT_AC, sortByCost, insertRanked, eclt_5_5, pushTabu]

theorem cityTabuRunZ : tabu_search cityC1 "A" "Z" 1 5 =
    .ok (none, .inf, [["A", "B"]]) := by
  simp [tabu_search, tabuLoop, cityStepZ]

theorem tabu_unreached_goal_none_witness :
    (none : Option (List String)) = none ∧ ECost.inf = ECost.inf :=
  tabu_unreached_goal_none cityC1 "A" "Z" 1 5 _ _ _ cityTabuRunZ (by decide)

theorem total_travel_time_spec_witness :
    total_travel_time cityC1 (some ["A"]) = .ok .inf ∧
      total_travel_time cityC1 (some ["A", "B"]) =
        .ok (.val (((["A", "B"].zip ["A", "B"].tail).map
          (edgeTimeD cityC1)).sum)) :=
  ⟨(total_travel_time_spec cityC1).1 ["A"] (by decide),
    (total_travel_time_spec cityC1).2 ["A", "B"] (by decide)
      (by
        intro uv huv
        have huv' : uv = ("A", "B") := by simpa using huv
        subst huv'
        exact ⟨⟨5, 50, 1⟩, rfl, by norm_num⟩)⟩

/-- A path is structurally valid: every consecutive pair is an edge of the
graph, so `graph[u][v]` lookups along it cannot raise `KeyError`. -/
def validChain {α : Type} (g : Graph α) (p : List α) : Prop :=
  ∀ uv ∈ p.zip p.tail, (g.attr uv.1 uv.2).isSome = true

theorem zip_tail_append {α : Type} (last v : α) :
    ∀ (cur : List α), cur.getLast? = some last →
      (cur ++ [v]).zip (cur ++ [v]).tail =
        cur.zip cur.tail ++ [(last, v)] := by
  intro cur
  induction cur with
  | nil => intro h; cases h
  | cons a tl ih =>
    intro hlast
    cases tl with
    | nil =>
      have ha : a = last := by simpa using hlast
      subst ha
      simp
    | cons b rest =>
      rw [List.getLast?_cons_cons] at hlast
      have ihh := ih hlast
      simp only [List.cons_append, List.tail_cons, List.zip_cons_cons] at ihh ⊢
      rw [ihh]

theorem validChain_extend {α : Type} [DecidableEq α] (g : Graph α)
    (hwf : g.WF) (cur : List α) (last v : α) (hchain : validChain g cur)
    (hlast : cur.getLast? = some last) (hv : v ∈ g.neighbors last) :
    validChain g (cur ++ [v]) := by
  intro uv huv
  rw [zip_tail_append last v cur hlast] at huv
  rcases List.mem_append.mp huv with h | h
  · exact hchain uv h
  · have huvlv : uv = (last, v) := by simpa using h
    subst huvlv
    exact (hwf last v).mp hv

theorem travel_time_ne_keyError {α : Type} [DecidableEq α] (g : Graph α)
    (p : List α) (hchain : validChain g p) :
    travel_time g p ≠ .error .keyError := by
  have hpt : ∀ uv ∈ p.zip p.tail, edgeTime g uv ≠ .error .keyError := by
    intro uv huv
    have hs := hchain uv huv
    cases ha : g.attr uv.1 uv.2 with
    | none => rw [ha] at hs; cases hs
    | some a =>
      unfold edgeTime
      rw [ha]
      unfold calculate_travel_time
      by_cases h0 : a.speed_limit = 0 <;> simp [h0]
  have hne := mapExcept_ne_error (edgeTime g) (p.zip p.tail) .keyError hpt
  unfold travel_time total_travel_time
  dsimp only
  by_cases hlen : 1 < p.length
  · rw [if_pos hlen]
    cases hm : mapExcept (edgeTime g) (p.zip p.tail) with
    | error e =>
      intro hcontr
      cases hcontr
      exact hne hm
    | ok cs => simp
  · rw [if_neg hlen]
    simp

theorem keyed_fst_mem {α : Type} [DecidableEq α] (g : Graph α)
    (cands : List (List α)) (keyed : List (List α × ECost))
    (hmap : mapExcept (fun p =>
      match travel_time g p with
      | .error e => .error e
      | .ok c => .ok (p, c)) cands = .ok keyed)
    (best : List α × ECost) (hbk : best ∈ keyed) : best.1 ∈ cands := by
  rcases mapExcept_mem _ cands keyed hmap best hbk with ⟨q, hq, hfq⟩
  cases htq : travel_time g q with
  | error e => rw [htq] at hfq; cases hfq
  | ok c =>
    rw [htq] at hfq
    cases hfq
    exact hq

theorem tabuStep_valid {α : Type} [DecidableEq α] (g : Graph α) (goal : α)
    (cap : Nat) (s : TabuState α) (hwf : g.WF)
    (hcur : validChain g s.current) :
    (∀ p ∈ get_neighbors g s.current, validChain g p) ∧
      tabuStep g goal cap s ≠ .error .keyError ∧
      ∀ s', tabuStep g goal cap s = .ok (some s') →
        validChain g s'.current := by
  have hcand : ∀ p ∈ get_neighbors g s.current, validChain g p := by
    intro p hp
    rcases mem_get_neighbors g s.current p hp with ⟨last, v, hlast, hv, _, hpe⟩
    rw [hpe]
    exact validChain_extend g hwf s.current last v hcur hlast hv
  refine ⟨hcand, ?_, ?_⟩
  · unfold tabuStep
    set cands := (get_neighbors g s.current).filter
      (fun n => decide (¬ n ∈ s.tabuList)) with hcands
    by_cases hempty : cands.isEmpty
    · rw [if_pos hempty]; simp
    · rw [if_neg hempty]
      have hptw : ∀ p ∈ cands, (fun p =>
          match travel_time g p with
          | .error e => Except.error e
          | .ok c => Except.ok (p, c)) p ≠ Except.error Err.keyError := by
        intro p hp
        have hvc : validChain g p := hcand p (List.mem_filter.mp (hcands ▸ hp)).1
        have := travel_time_ne_keyError g p hvc
        cases htp : travel_time g p with
        | error e =>
          intro hcontr
          simp only [htp] at hcontr
          cases hcontr
          exact this htp
        | ok c => simp [htp]
      have hmne := mapExcept_ne_error _ cands .keyError hptw
      cases hmap : mapExcept (fun p =>
          match travel_time g p with
          | .error e => Except.error e
          | .ok c => Except.ok (p, c)) cands with
      | error e =>
        intro hcontr
        cases hcontr
        exact hmne hmap
      | ok keyed =>
        dsimp only
        cases hsort : sortByCost keyed with
        | nil => simp
        | cons best rest =>
          dsimp only
          have hbc : best.1 ∈ cands := by
            apply keyed_fst_mem g cands keyed hmap
            apply mem_sortByCost
            rw [hsort]
            exact List.mem_cons_self best rest
          have hvb : validChain g best.1 :=
            hcand best.1 (List.mem_filter.mp (hcands ▸ hbc)).1
          have htne := travel_time_ne_keyError g best.1 hvb
          cases htb : travel_time g best.1 with
          | error e =>
            dsimp only
            intro hcontr
            cases hcontr
            exact htne htb
          | ok c =>
            dsimp only
            by_cases hupd : best.1.getLast? = some goal ∧
                ECost.lt c s.bestCost = true
            · rw [if_pos hupd]; simp
            · rw [if_neg hupd]; simp
  · intro s' hstep
    rcases tabuStep_spec _ _ _ _ _ hstep with ⟨hmem, _, _, _⟩
    exact hcand s'.current hmem

theorem tabuLoop_ne_keyError {α : Type} [DecidableEq α] (g : Graph α)
    (goal : α) (cap : Nat) (hwf : g.WF) : ∀ (n : Nat) (s : TabuState α),
    validChain g s.current → tabuLoop g goal cap n s ≠ .error .keyError := by
  intro n
  induction n with
  | zero => intro s _; rw [tabuLoop]; simp
  | succ m ih =>
    intro s hs
    rw [tabuLoop]
    rcases tabuStep_valid g goal cap s hwf hs with ⟨_, hne, hpres⟩
    cases hstep : tabuStep g goal cap s with
    | error e =>
      intro hcontr
      cases hcontr
      exact hne hstep
    | ok r =>
      cases r with
      | none => simp
      | some t => exact ih t (hpres t hstep)

/-- C10: under graph well-formedness, every candidate tabu search ranks is
structurally valid (each consecutive pair is an edge of the graph), and
consequently the path evaluator's edge-not-found failure (`KeyError`) is
unreachable from within `tabu_search`. -/
theorem tabu_candidates_valid_no_keyError {α : Type} [DecidableEq α]
    (g : Graph α) (start goal : α) (n cap : Nat) (hwf : g.WF) :
    (∀ s, TabuReach g goal cap (tabuInit start) s →
        ∀ p ∈ get_neighbors g s.current, validChain g p) ∧
      tabu_search g start goal n cap ≠ .error .keyError := by
  have hinitv : validChain g (tabuInit start).current := by
    intro uv huv
    simp [tabuInit] at huv
  have hreachv : ∀ s, TabuReach g goal cap (tabuInit start) s →
      validChain g s.current := by
    intro s hs
    induction hs with
    | refl => exact hinitv
    | step hreach hstep ih =>
      exact (tabuStep_valid g goal cap _ hwf ih).2.2 _ hstep
  constructor
  · intro s hs p hp
    exact (tabuStep_valid g goal cap s hwf (hreachv s hs)).1 p hp
  · unfold tabu_search
    have hlne := tabuLoop_ne_keyError g goal cap hwf n (tabuInit start) hinitv
    cases hloop : tabuLoop g goal cap n (tabuInit start) with
    | error e =>
      intro hcontr
      cases hcontr
      exact hlne hloop
    | ok s => simp

/-- A tiny well-formed two-node graph used to instantiate hypotheses that
quantify over all nodes. -/
def gSmall : Graph (Fin 2) where
  neighbors := fun u => if u = 0 then [1] else []
  attr := fun u v => if u = 0 ∧ v = 1 then some ⟨5, 50, 1⟩ else none

theorem tabu_candidates_valid_no_keyError_witness :
    (∀ s, TabuReach gSmall 1 5 (tabuInit 0) s →
        ∀ p ∈ get_neighbors gSmall s.current, validChain gSmall p) ∧
      tabu_search gSmall 0 1 3 5 ≠ .error .keyError :=
  tabu_candidates_valid_no_keyError gSmall 0 1 3 5 (by decide)
